import Mathlib

/-!
Verification of the Hanabi simulator's core against its specification.

The Rust sources are shallowly embedded:
* `card.rs` → `Card`, `Card.get_color`, `Card.get_value`
* `deck.rs` → `Deck.new_full_deck`
* `decksubset.rs` → the `DeckSubset` namespace (masks as natural numbers
  standing for `u64` values)
* `knowledge.rs` → the `Knowledge` namespace
* `game.rs` → `GameState`, `Game.apply_move`, `Game.game_over`, `Game.new`
* `strategies/robert.rs` → hint-update (`hintStep`) and `score_play`

Partial (panicking) Rust functions are embedded as `Option`-returning
functions where `none` stands for the panic.
-/

namespace Hanabi

/-- The five suits, as in `enums.rs`. -/
inductive Color : Type
  | Red
  | Green
  | Blue
  | Yellow
  | White
deriving DecidableEq, Repr

/-- `Color as usize`: discriminant order of the Rust enum. -/
def Color.index : Color → Nat
  | .Red => 0
  | .Green => 1
  | .Blue => 2
  | .Yellow => 3
  | .White => 4

/-- A card is a single encoded byte, as in `card.rs`: `pub struct Card (pub u8)`. -/
structure Card : Type where
  val : Nat
deriving DecidableEq, Repr

/-- `Card::get_color` (`card.rs`): tens digit selects the suit; any tens digit
above 4 panics, which we embed as `none`. -/
def Card.get_color (c : Card) : Option Color :=
  match c.val / 10 with
  | 0 => some .Red
  | 1 => some .Green
  | 2 => some .Blue
  | 3 => some .Yellow
  | 4 => some .White
  | _ => none

/-- `Card::get_value` (`card.rs`): the units digit is decoded through the
bucket table `0..=2 ↦ 1, 3..=4 ↦ 2, 5..=6 ↦ 3, 7..=8 ↦ 4, 9 ↦ 5`.  The Rust
match is exhaustive on `0..=9` (the `_ => panic` arm is unreachable because
`x % 10 ≤ 9`), so the embedding is total. -/
def Card.get_value (c : Card) : Nat :=
  let r := c.val % 10
  if r ≤ 2 then 1
  else if r ≤ 4 then 2
  else if r ≤ 6 then 3
  else if r ≤ 8 then 4
  else 5

/-- `amounts` array of `Deck::new_full_deck` (`deck.rs`). -/
def Deck.amounts : List Nat := [3, 2, 2, 2, 1]

/-- `Deck::new_full_deck` (`deck.rs`): for each suit index `ci` and each
`value` in `1..=5`, push `amounts[value-1]` copies of the card encoded as
`ci * 10 + value`, in that order. -/
def Deck.new_full_deck : List Card :=
  (List.range 5).flatMap (fun ci =>
    (List.range 5).flatMap (fun vi =>
      List.replicate (Deck.amounts.getD vi 0) ⟨ci * 10 + (vi + 1)⟩))

namespace DeckSubset

/-- `DeckSubset::new_full` (`decksubset.rs`): `(1u64 << 50) - 1`. -/
def new_full : Nat := (1 <<< 50) - 1

/-- `DeckSubset::from_color` (`decksubset.rs`), the literal bit patterns. -/
def from_color : Color → Nat
  | .Red =>    0b0000000000000000000000000000000000000000000000000000001111111111
  | .Green =>  0b0000000000000000000000000000000000000000000011111111110000000000
  | .Blue =>   0b0000000000000000000000000000000000111111111100000000000000000000
  | .Yellow => 0b0000000000000000000000001111111111000000000000000000000000000000
  | .White =>  0b0000000000000011111111110000000000000000000000000000000000000000

/-- `u64` bitwise NOT: `!x = x ^ u64::MAX`. -/
def u64Not (x : Nat) : Nat := x ^^^ (2 ^ 64 - 1)

/-- `DeckSubset::from_color_inverted` (`decksubset.rs`): `(!col) & full`. -/
def from_color_inverted (c : Color) : Nat :=
  u64Not (from_color c) &&& new_full

/-- `DeckSubset::from_value` (`decksubset.rs`): the literal bit patterns;
any value outside `1..=5` panics, embedded as `none`. -/
def from_value : Nat → Option Nat
  | 1 => some 0b0000000000000000000001110000000111000000011100000001110000000111
  | 2 => some 0b0000000000000000000110000000011000000001100000000110000000011000
  | 3 => some 0b0000000000000000011000000001100000000110000000011000000001100000
  | 4 => some 0b0000000000000001100000000110000000011000000001100000000110000000
  | 5 => some 0b0000000000000010000000001000000000100000000010000000001000000000
  | _ => none

/-- `DeckSubset::from_value_inverted` (`decksubset.rs`): `(!val) & full`. -/
def from_value_inverted (v : Nat) : Option Nat :=
  (from_value v).map (fun m => u64Not m &&& new_full)

/-- `DeckSubset::from_card` (`decksubset.rs`): suit mask ∩ value mask.  The
`get_color` call panics on an invalid encoding, hence the `Option`. -/
def from_card (c : Card) : Option Nat := do
  let col ← c.get_color
  let vm ← from_value c.get_value
  return from_color col &&& vm

/-- `DeckSubset::has_card` (`decksubset.rs`): `(self.0 & (1 << card.0)) != 0`. -/
def has_card (m : Nat) (c : Card) : Bool :=
  (m &&& (1 <<< c.val)) != 0

/-- `DeckSubset::remove_card` (`decksubset.rs`): `self.0 &= !(1 << card.0)`. -/
def remove_card (m : Nat) (c : Card) : Nat :=
  m &&& u64Not (1 <<< c.val)

/-- `DeckSubset::add_card` (`decksubset.rs`): `self.0 |= 1 << card.0`. -/
def add_card (m : Nat) (c : Card) : Nat :=
  m ||| (1 <<< c.val)

/-- `DeckSubset::intersect` (`decksubset.rs`). -/
def intersect (a b : Nat) : Nat := a &&& b

/-- `u64::count_ones`, the population count of the 64-bit word. -/
def popCount (m : Nat) : Nat :=
  ((List.range 64).filter (fun i => m.testBit i)).length

end DeckSubset

namespace Knowledge

/-- `Knowledge::new_full` (`knowledge.rs`): `Knowledge(!0)`, i.e. all 64 bits. -/
def new_full : Nat := 2 ^ 64 - 1

/-- `Knowledge::from_color` (`knowledge.rs`), the literal bit patterns. -/
def from_color : Color → Nat
  | .Red =>    0b0000000000000000000000000000000000000000000000000000001111111111
  | .Green =>  0b0000000000000000000000000000000000000000000011111111110000000000
  | .Blue =>   0b0000000000000000000000000000000000111111111100000000000000000000
  | .Yellow => 0b0000000000000000000000001111111111000000000000000000000000000000
  | .White =>  0b0000000000000011111111110000000000000000000000000000000000000000

/-- `Knowledge::from_value` (`knowledge.rs`); values outside `1..=5` panic. -/
def from_value : Nat → Option Nat
  | 1 => some 0b0000000000000000000001110000000111000000011100000001110000000111
  | 2 => some 0b0000000000000000000110000000011000000001100000000110000000011000
  | 3 => some 0b0000000000000000011000000001100000000110000000011000000001100000
  | 4 => some 0b0000000000000001100000000110000000011000000001100000000110000000
  | 5 => some 0b0000000000000010000000001000000000100000000010000000001000000000
  | _ => none

/-- `Knowledge::has_card` (`knowledge.rs`): note the extra `& 1` in the
source, `(self.0 & (1 << card.0)) & 1 != 0`. -/
def has_card (m : Nat) (c : Card) : Bool :=
  ((m &&& (1 <<< c.val)) &&& 1) != 0

/-- `Knowledge::add_card` (`knowledge.rs`). -/
def add_card (m : Nat) (c : Card) : Nat :=
  m ||| (1 <<< c.val)

/-- `Knowledge::remove_card` (`knowledge.rs`). -/
def remove_card (m : Nat) (c : Card) : Nat :=
  m &&& DeckSubset.u64Not (1 <<< c.val)

/-- `Knowledge::intersect` (`knowledge.rs`). -/
def intersect (a b : Nat) : Nat := a &&& b

end Knowledge

/-- Moves, as in `enums.rs`. -/
inductive Move : Type
  | Play (i : Nat)
  | Discard (i : Nat)
  | HintColor (c : Color)
  | HintValue (v : Nat)
deriving DecidableEq, Repr

/-- The fields of `Game` (`game.rs`) that the engine itself reads or
writes; the two players' hands are lifted out of the `Player` structs.
Strategy objects receive callbacks but never influence these fields. -/
structure GameState : Type where
  hand0 : List Card
  hand1 : List Card
  deck : List Card
  fireworks : List Nat
  hints_remaining : Nat
  mistakes_made : Nat
  player_to_move : Nat
deriving DecidableEq, Repr

/-- The hand of the player to move. -/
def GameState.curHand (s : GameState) : List Card :=
  if s.player_to_move = 0 then s.hand0 else s.hand1

/-- The other player's hand. -/
def GameState.otherHand (s : GameState) : List Card :=
  if s.player_to_move = 0 then s.hand1 else s.hand0

/-- Replace the hand of the player to move. -/
def GameState.setCurHand (s : GameState) (h : List Card) : GameState :=
  if s.player_to_move = 0 then { s with hand0 := h } else { s with hand1 := h }

/-- `Vec::pop` on `deck.cards`: take the last card, if any. -/
def popDeck (d : List Card) : Option (Card × List Card) :=
  match d.getLast? with
  | none => none
  | some c => some (c, d.dropLast)

namespace Game

/-- `Game::play` (`game.rs`): index the hand (panic if out of range),
decode the card (panic if invalid), remove it, draw a replacement from the
top of the deck if possible, then either advance the firework or count a
mistake.  Strategy callbacks do not touch the game state. -/
def play (s : GameState) (card_index : Nat) : Option GameState := do
  let card ← s.curHand.get? card_index
  let color ← card.get_color
  let card_color_index := color.index
  let card_value := card.get_value
  let hand := s.curHand.eraseIdx card_index
  let (hand, deck) :=
    match popDeck s.deck with
    | some (new_card, rest) => (hand ++ [new_card], rest)
    | none => (hand, s.deck)
  let f ← s.fireworks.get? card_color_index
  if f + 1 = card_value then
    return { s.setCurHand hand with
             deck := deck,
             fireworks := s.fireworks.set card_color_index (f + 1) }
  else
    return { s.setCurHand hand with
             deck := deck,
             mistakes_made := s.mistakes_made + 1 }

/-- `Game::discard` (`game.rs`): remove the card (panic if out of range),
regain a hint token if below 8, draw a replacement if possible. -/
def discard (s : GameState) (card_index : Nat) : Option GameState := do
  let _ ← s.curHand.get? card_index
  let hand := s.curHand.eraseIdx card_index
  let hints :=
    if s.hints_remaining < 8 then s.hints_remaining + 1 else s.hints_remaining
  let (hand, deck) :=
    match popDeck s.deck with
    | some (new_card, rest) => (hand ++ [new_card], rest)
    | none => (hand, s.deck)
  return { s.setCurHand hand with deck := deck, hints_remaining := hints }

/-- `Game::give_hint_color` (`game.rs`): panics when no hint token is left;
otherwise spends one.  The hinted indices are computed from the other hand
(calling `get_color` on each card, which panics on an invalid encoding) but
only flow to the strategies, not into the game state. -/
def give_hint_color (s : GameState) (_color : Color) : Option GameState := do
  if s.hints_remaining = 0 then none
  else do
    let _ ← s.otherHand.mapM Card.get_color
    return { s with hints_remaining := s.hints_remaining - 1 }

/-- `Game::give_hint_value` (`game.rs`): panics when no hint token is left;
otherwise spends one.  `get_value` is total, and `Knowledge::from_value` is
only invoked on hinted indices (whose cards decode to `value`), so no other
panic is reachable. -/
def give_hint_value (s : GameState) (_value : Nat) : Option GameState := do
  if s.hints_remaining = 0 then none
  else return { s with hints_remaining := s.hints_remaining - 1 }

/-- `Game::apply_move` (`game.rs`): dispatch, then switch the turn. -/
def apply_move (s : GameState) (mv : Move) : Option GameState :=
  let applied : Option GameState :=
    match mv with
    | .Play i => play s i
    | .Discard i => discard s i
    | .HintColor c => give_hint_color s c
    | .HintValue v => give_hint_value s v
  applied.map
    (fun s' => { s' with
                 player_to_move := if s.player_to_move = 0 then 1 else 0 })

/-- `Game::game_over` (`game.rs`): `Some(sum(fireworks))` when mistakes
reach 3, or all five fireworks are 5, or the deck is empty and both hands
have exactly 4 cards; `None` otherwise. -/
def game_over (s : GameState) : Option Nat :=
  if 3 ≤ s.mistakes_made ∨ s.fireworks.all (· == 5) ∨
      (s.deck.isEmpty ∧ s.hand0.length = 4 ∧ s.hand1.length = 4) then
    some s.fireworks.sum
  else
    none

/-- The dealing loop of `Game::new` (`game.rs`): `n` rounds in which player
0 draws from the top of the deck, then player 1 does. -/
def dealRound : Nat → List Card → List Card → List Card →
    Option (List Card × List Card × List Card)
  | 0, d, h0, h1 => some (d, h0, h1)
  | n + 1, d, h0, h1 => do
      let (c0, d) ← popDeck d
      let (c1, d) ← popDeck d
      dealRound n d (h0 ++ [c0]) (h1 ++ [c1])

/-- `Game::new` (`game.rs`) on an already-shuffled deck: deal 5 rounds,
fireworks all 0, 8 hint tokens, no mistakes, player 0 to move. -/
def new (deck : List Card) : Option GameState := do
  let (d, h0, h1) ← dealRound 5 deck [] []
  return ⟨h0, h1, d, [0, 0, 0, 0, 0], 8, 0, 0⟩

/-- States reachable from a game freshly dealt from `d` by applying moves
(any move whose application succeeds). -/
inductive Reachable (d : List Card) : GameState → Prop
  | init (s : GameState) : new d = some s → Reachable d s
  | step (s : GameState) (mv : Move) (s' : GameState) :
      Reachable d s → apply_move s mv = some s' → Reachable d s'

end Game

/-- Legality of a move in the current state, as enumerated by the
legal-move-respecting strategies (`strategies/random.rs`,
`possible_moves`): Play/Discard of any occupied slot; a hint only with a
token left and only about a color/value the other player actually holds. -/
def legalMove (s : GameState) (mv : Move) : Bool :=
  match mv with
  | .Play i => i < s.curHand.length
  | .Discard i => i < s.curHand.length
  | .HintColor c =>
      0 < s.hints_remaining &&
        s.otherHand.any (fun card => card.get_color == some c)
  | .HintValue v =>
      0 < s.hints_remaining && s.otherHand.any (fun card => card.get_value == v)

/-- Apply a list of moves in order; `none` if any application panics. -/
def applyMoves (s : GameState) : List Move → Option GameState
  | [] => some s
  | mv :: ms => (Game.apply_move s mv).bind (fun s' => applyMoves s' ms)

/-- Run a move script as an actual game: before each move the game must
not be over and the move must be legal for the player to move. -/
def runLegal (s : GameState) : List Move → Option GameState
  | [] => some s
  | mv :: ms =>
      if (Game.game_over s).isNone && legalMove s mv then
        (Game.apply_move s mv).bind (fun s' => runLegal s' ms)
      else
        none

/-- Claim C4: `game_over()` returns `Some(sum fireworks)` exactly when
mistakes reach 3, or all five fireworks are 5, or the deck is empty and
both hands have length exactly 4; in every other state it returns `None`
(so in particular three mistakes end the game immediately, via the first
disjunct, regardless of fireworks or deck). -/
theorem C4_game_over_characterization (s : GameState) :
    (Game.game_over s = some s.fireworks.sum ↔
      (3 ≤ s.mistakes_made ∨ (∀ f ∈ s.fireworks, f = 5) ∨
        (s.deck = [] ∧ s.hand0.length = 4 ∧ s.hand1.length = 4))) ∧
    (Game.game_over s = none ↔
      ¬(3 ≤ s.mistakes_made ∨ (∀ f ∈ s.fireworks, f = 5) ∨
        (s.deck = [] ∧ s.hand0.length = 4 ∧ s.hand1.length = 4))) := by
  unfold Game.game_over
  constructor
  · split
    · simp_all [List.all_eq_true, List.isEmpty_iff]
    · simp_all [List.all_eq_true, List.isEmpty_iff]
  · split
    · simp_all [List.all_eq_true, List.isEmpty_iff]
    · simp_all [List.all_eq_true, List.isEmpty_iff]

/-- Claim C8: the hint-token counter stays in `[0, 8]`; a Discard
increments it only when it is below 8 (8 stays 8, never 9); a hint move
panics at 0 tokens and otherwise decrements by exactly 1. -/
theorem C8_hint_token_bounds (s : GameState) (h8 : s.hints_remaining ≤ 8) :
    (∀ i s', Game.apply_move s (.Discard i) = some s' →
        s'.hints_remaining
          = (if s.hints_remaining < 8 then s.hints_remaining + 1
             else s.hints_remaining) ∧
        s'.hints_remaining ≤ 8) ∧
    (∀ c, s.hints_remaining = 0 → Game.apply_move s (.HintColor c) = none) ∧
    (∀ v, s.hints_remaining = 0 → Game.apply_move s (.HintValue v) = none) ∧
    (∀ c s', Game.apply_move s (.HintColor c) = some s' →
        0 < s.hints_remaining ∧
        s'.hints_remaining = s.hints_remaining - 1) ∧
    (∀ v s', Game.apply_move s (.HintValue v) = some s' →
        0 < s.hints_remaining ∧
        s'.hints_remaining = s.hints_remaining - 1) := by
  refine ⟨?_, ?_, ?_, ?_, ?_⟩
  · intro i s' hs'
    simp only [Game.apply_move, Game.discard, Option.map_eq_some',
      Option.bind_eq_bind, Option.bind_eq_some'] at hs'
    obtain ⟨t, ⟨c, hc, ht⟩, hs'⟩ := hs'
    subst hs'
    split at ht
    all_goals
      simp only [Option.pure_def, Option.some_inj] at ht
    all_goals subst ht
    all_goals unfold GameState.setCurHand
    all_goals split
    all_goals split
    all_goals simp_all
    all_goals omega
  · intro c h0
    simp [Game.apply_move, Game.give_hint_color, h0]
  · intro v h0
    simp [Game.apply_move, Game.give_hint_value, h0]
  · intro c s' hs'
    simp only [Game.apply_move, Game.give_hint_color,
      Option.map_eq_some'] at hs'
    obtain ⟨t, ht, hs'⟩ := hs'
    subst hs'
    split at ht
    · exact Option.noConfusion ht
    · simp only [Option.bind_eq_bind, Option.bind_eq_some',
        Option.pure_def, Option.some_inj] at ht
      obtain ⟨cs, hcs, ht⟩ := ht
      subst ht
      constructor
      · omega
      · rfl
  · intro v s' hs'
    simp only [Game.apply_move, Game.give_hint_value,
      Option.map_eq_some'] at hs'
    obtain ⟨t, ht, hs'⟩ := hs'
    subst hs'
    split at ht
    · exact Option.noConfusion ht
    · simp only [Option.pure_def, Option.some_inj] at ht
      subst ht
      constructor
      · omega
      · rfl

/-- Witness for C8 at the concrete state with one-card hands, an empty
deck and 8 hint tokens: discarding keeps the counter at 8. -/
theorem C8_hint_token_bounds_witness :
    (⟨[], [⟨1⟩], [], [0, 0, 0, 0, 0], 8, 0, 1⟩ : GameState).hints_remaining
      = (if (8 : Nat) < 8 then 8 + 1 else 8) ∧
    (⟨[], [⟨1⟩], [], [0, 0, 0, 0, 0], 8, 0, 1⟩ :
        GameState).hints_remaining ≤ 8 :=
  (C8_hint_token_bounds ⟨[⟨1⟩], [⟨1⟩], [], [0, 0, 0, 0, 0], 8, 0, 0⟩
    (by decide)).1 0 _ (by decide)

/-- Number of physical cards still in the game: deck plus both hands. -/
def totalCards (s : GameState) : Nat :=
  s.deck.length + s.hand0.length + s.hand1.length

/-- Play and Discard are the moves that consume a card. -/
def isPlayDiscard : Move → Bool
  | .Play _ => true
  | .Discard _ => true
  | .HintColor _ => false
  | .HintValue _ => false

/-- A successful `popDeck` removes exactly the last card. -/
theorem popDeck_eq_some {d : List Card} {c : Card} {rest : List Card}
    (h : popDeck d = some (c, rest)) :
    rest = d.dropLast ∧ 1 ≤ d.length := by
  unfold popDeck at h
  split at h
  · exact Option.noConfusion h
  · rename_i c' heq
    simp only [Option.some_inj, Prod.mk.injEq] at h
    refine ⟨h.2.symm, ?_⟩
    cases d with
    | nil => simp at heq
    | cons a t => simp

/-- Replacing the mover's hand changes only that hand. -/
theorem setCurHand_lengths (s : GameState) (h : List Card) :
    (s.setCurHand h).hand0.length + (s.setCurHand h).hand1.length
      = h.length + s.otherHand.length := by
  by_cases hp : s.player_to_move = 0 <;>
    simp [GameState.setCurHand, GameState.otherHand, hp]
  omega

/-- The two hands are the mover's and the other player's. -/
theorem curHand_add_otherHand (s : GameState) :
    s.curHand.length + s.otherHand.length
      = s.hand0.length + s.hand1.length := by
  by_cases hp : s.player_to_move = 0 <;>
    simp [GameState.curHand, GameState.otherHand, hp]
  omega

/-- Each successfully applied move removes one card from play if it is a
Play or Discard, and none if it is a hint. -/
theorem apply_move_totalCards {s : GameState} {mv : Move} {s' : GameState}
    (h : Game.apply_move s mv = some s') :
    totalCards s' + (if isPlayDiscard mv then 1 else 0) = totalCards s := by
  simp only [Game.apply_move, Option.map_eq_some'] at h
  obtain ⟨t, ht, hs'⟩ := h
  subst hs'
  have hco := curHand_add_otherHand s
  cases mv with
  | Play i =>
    simp only [Game.play, Option.bind_eq_bind, Option.bind_eq_some'] at ht
    obtain ⟨card, hcard, ht⟩ := ht
    obtain ⟨color, _hcolor, ht⟩ := ht
    have hi : i < s.curHand.length := by
      rw [List.get?_eq_some] at hcard
      exact hcard.1
    have he : (s.curHand.eraseIdx i).length = s.curHand.length - 1 :=
      List.length_eraseIdx_of_lt hi
    split at ht
    case _ new_card rest hpop =>
      obtain ⟨hrest, hlen⟩ := popDeck_eq_some hpop
      subst hrest
      obtain ⟨f, _hf, ht⟩ := ht
      have hsc := setCurHand_lengths s (s.curHand.eraseIdx i ++ [new_card])
      simp only [List.length_append, List.length_singleton] at hsc
      split at ht
      all_goals simp only [Option.pure_def, Option.some_inj] at ht
      all_goals subst ht
      all_goals simp [totalCards, isPlayDiscard]
      all_goals omega
    case _ hpop =>
      obtain ⟨f, _hf, ht⟩ := ht
      have hsc := setCurHand_lengths s (s.curHand.eraseIdx i)
      split at ht
      all_goals simp only [Option.pure_def, Option.some_inj] at ht
      all_goals subst ht
      all_goals simp [totalCards, isPlayDiscard]
      all_goals omega
  | Discard i =>
    simp only [Game.discard, Option.bind_eq_bind, Option.bind_eq_some'] at ht
    obtain ⟨card, hcard, ht⟩ := ht
    have hi : i < s.curHand.length := by
      rw [List.get?_eq_some] at hcard
      exact hcard.1
    have he : (s.curHand.eraseIdx i).length = s.curHand.length - 1 :=
      List.length_eraseIdx_of_lt hi
    split at ht
    case _ new_card rest hpop =>
      obtain ⟨hrest, hlen⟩ := popDeck_eq_some hpop
      subst hrest
      have hsc := setCurHand_lengths s (s.curHand.eraseIdx i ++ [new_card])
      simp only [List.length_append, List.length_singleton] at hsc
      simp only [Option.pure_def, Option.some_inj] at ht
      subst ht
      simp [totalCards, isPlayDiscard]
      omega
    case _ hpop =>
      have hsc := setCurHand_lengths s (s.curHand.eraseIdx i)
      simp only [Option.pure_def, Option.some_inj] at ht
      subst ht
      simp [totalCards, isPlayDiscard]
      omega
  | HintColor c =>
    simp only [Game.give_hint_color] at ht
    split at ht
    · exact Option.noConfusion ht
    · simp only [Option.bind_eq_bind, Option.bind_eq_some',
        Option.pure_def, Option.some_inj] at ht
      obtain ⟨cs, _hcs, ht⟩ := ht
      subst ht
      simp [totalCards, isPlayDiscard]
  | HintValue v =>
    simp only [Game.give_hint_value] at ht
    split at ht
    · exact Option.noConfusion ht
    · simp only [Option.pure_def, Option.some_inj] at ht
      subst ht
      simp [totalCards, isPlayDiscard]

/-- Over a whole successful run, the number of Play/Discard moves equals
the number of cards that left play. -/
theorem applyMoves_totalCards {ms : List Move} :
    ∀ {s s' : GameState}, applyMoves s ms = some s' →
      totalCards s' + ms.countP isPlayDiscard = totalCards s := by
  induction ms with
  | nil =>
    intro s s' h
    simp only [applyMoves, Option.some_inj] at h
    subst h
    simp
  | cons mv ms ih =>
    intro s s' h
    simp only [applyMoves, Option.bind_eq_some'] at h
    obtain ⟨t, ht, hrun⟩ := h
    have h1 := apply_move_totalCards ht
    have h2 := ih hrun
    rw [List.countP_cons]
    omega

/-- Claim C9 (amended): from a freshly dealt game (deck 40, two hands of
5, i.e. `deck_size + 2 × hand_size` cards in play), any successfully
applied move sequence contains at most `deck_size + 2 × hand_size = 50`
Play and Discard moves; the hint moves are not bounded by this expression,
and the game need not be over within `deck_size + 2 × hand_size` total
moves (see the counterexample). -/
theorem C9_play_discard_bound (s₀ : GameState)
    (htot : s₀.deck.length + s₀.hand0.length + s₀.hand1.length = 40 + 2 * 5)
    (ms : List Move) (s' : GameState) (h : applyMoves s₀ ms = some s') :
    ms.countP isPlayDiscard ≤ 40 + 2 * 5 := by
  have := applyMoves_totalCards h
  unfold totalCards at this
  omega

/-- Witness for the amended C9: the empty move sequence on a freshly
shaped state. -/
theorem C9_play_discard_bound_witness :
    ([] : List Move).countP isPlayDiscard ≤ 40 + 2 * 5 :=
  C9_play_discard_bound
    ⟨List.replicate 5 ⟨1⟩, List.replicate 5 ⟨1⟩, List.replicate 40 ⟨1⟩,
      [0, 0, 0, 0, 0], 8, 0, 0⟩
    (by decide) [] _ rfl

/-- An 80-move script: player 0 always discards slot 0, player 1 always
hints the color of player 0's first card.  Every move is legal, and only
40 of the 80 moves are Play/Discard. -/
def c9Script : List Move :=
  [Move.Discard 0, Move.HintColor Color.White, Move.Discard 0, Move.HintColor Color.White,
   Move.Discard 0, Move.HintColor Color.White, Move.Discard 0, Move.HintColor Color.White,
   Move.Discard 0, Move.HintColor Color.Yellow, Move.Discard 0, Move.HintColor Color.Yellow,
   Move.Discard 0, Move.HintColor Color.Yellow, Move.Discard 0, Move.HintColor Color.Yellow,
   Move.Discard 0, Move.HintColor Color.Yellow, Move.Discard 0, Move.HintColor Color.Yellow,
   Move.Discard 0, Move.HintColor Color.Yellow, Move.Discard 0, Move.HintColor Color.Yellow,
   Move.Discard 0, Move.HintColor Color.Yellow, Move.Discard 0, Move.HintColor Color.Yellow,
   Move.Discard 0, Move.HintColor Color.Blue, Move.Discard 0, Move.HintColor Color.Blue,
   Move.Discard 0, Move.HintColor Color.Blue, Move.Discard 0, Move.HintColor Color.Blue,
   Move.Discard 0, Move.HintColor Color.Blue, Move.Discard 0, Move.HintColor Color.Blue,
   Move.Discard 0, Move.HintColor Color.Blue, Move.Discard 0, Move.HintColor Color.Blue,
   Move.Discard 0, Move.HintColor Color.Blue, Move.Discard 0, Move.HintColor Color.Blue,
   Move.Discard 0, Move.HintColor Color.Green, Move.Discard 0, Move.HintColor Color.Green,
   Move.Discard 0, Move.HintColor Color.Green, Move.Discard 0, Move.HintColor Color.Green,
   Move.Discard 0, Move.HintColor Color.Green, Move.Discard 0, Move.HintColor Color.Green,
   Move.Discard 0, Move.HintColor Color.Green, Move.Discard 0, Move.HintColor Color.Green,
   Move.Discard 0, Move.HintColor Color.Green, Move.Discard 0, Move.HintColor Color.Green,
   Move.Discard 0, Move.HintColor Color.Red, Move.Discard 0, Move.HintColor Color.Red,
   Move.Discard 0, Move.HintColor Color.Red, Move.Discard 0, Move.HintColor Color.Red,
   Move.Discard 0, Move.HintColor Color.Red, Move.Discard 0, Move.HintColor Color.Red]

/-- Claim C9 (counterexample): starting from an identity-shuffled full
deck, this 80-move run — every move legal for the player to move, the game
checked to be not over before every move — ends with `game_over` still
`None`, although 80 exceeds `deck_size + 2 × hand_size` under either
reading of `deck_size` (40 after the deal, or the full 50). -/
theorem C9_counterexample :
    c9Script.length = 80 ∧
    40 + 2 * 5 < 80 ∧ 50 + 2 * 5 < 80 ∧
    ((Game.new Deck.new_full_deck).bind
      (fun s => runLegal s c9Script)).isSome = true ∧
    ((Game.new Deck.new_full_deck).bind
      (fun s => runLegal s c9Script)).bind Game.game_over = none := by
  refine ⟨by decide, by decide, by decide, by rfl, by rfl⟩

/-- Invariant for claim C2: every card still in play decodes to a value of
at most 3, and the five fireworks counters are at most 3. -/
def ValueBound (s : GameState) : Prop :=
  (∀ c ∈ s.hand0, c.get_value ≤ 3) ∧
  (∀ c ∈ s.hand1, c.get_value ≤ 3) ∧
  (∀ c ∈ s.deck, c.get_value ≤ 3) ∧
  s.fireworks.length = 5 ∧
  (∀ f ∈ s.fireworks, f ≤ 3)

/-- A popped card, and the remaining deck, come from the deck. -/
theorem popDeck_mem {d : List Card} {c : Card} {rest : List Card}
    (h : popDeck d = some (c, rest)) :
    c ∈ d ∧ ∀ x ∈ rest, x ∈ d := by
  unfold popDeck at h
  split at h
  · exact Option.noConfusion h
  · rename_i c' heq
    simp only [Option.some_inj, Prod.mk.injEq] at h
    obtain ⟨hc, hrest⟩ := h
    subst hc
    subst hrest
    exact ⟨List.mem_of_mem_getLast? heq,
      fun x hx => List.mem_of_mem_dropLast hx⟩

/-- Dealing only moves cards around: any property of all cards of the deck
and the partial hands holds for all cards of the results. -/
theorem dealRound_mem {P : Card → Prop} :
    ∀ (n : Nat) (d h0 h1 d' h0' h1' : List Card),
      Game.dealRound n d h0 h1 = some (d', h0', h1') →
      (∀ c ∈ d, P c) → (∀ c ∈ h0, P c) → (∀ c ∈ h1, P c) →
      (∀ c ∈ d', P c) ∧ (∀ c ∈ h0', P c) ∧ (∀ c ∈ h1', P c) := by
  intro n
  induction n with
  | zero =>
    intro d h0 h1 d' h0' h1' h hd hh0 hh1
    simp only [Game.dealRound, Option.some_inj, Prod.mk.injEq] at h
    obtain ⟨h1', h2', h3'⟩ := h
    subst h1'
    subst h2'
    subst h3'
    exact ⟨hd, hh0, hh1⟩
  | succ n ih =>
    intro d h0 h1 d' h0' h1' h hd hh0 hh1
    simp only [Game.dealRound, Option.bind_eq_bind,
      Option.bind_eq_some'] at h
    obtain ⟨⟨c0, d1⟩, hpop0, h⟩ := h
    obtain ⟨⟨c1, d2⟩, hpop1, h⟩ := h
    obtain ⟨hc0, hd1⟩ := popDeck_mem hpop0
    obtain ⟨hc1, hd2⟩ := popDeck_mem hpop1
    refine ih d2 (h0 ++ [c0]) (h1 ++ [c1]) d' h0' h1' h
      (fun c hc => hd c (hd1 c (hd2 c hc))) ?_ ?_
    · intro c hc
      rcases List.mem_append.mp hc with hc | hc
      · exact hh0 c hc
      · simp only [List.mem_singleton] at hc
        subst hc
        exact hd c hc0
    · intro c hc
      rcases List.mem_append.mp hc with hc | hc
      · exact hh1 c hc
      · simp only [List.mem_singleton] at hc
        subst hc
        exact hd c (hd1 c hc1)

/-- A freshly dealt game from a value-bounded deck is value-bounded. -/
theorem valueBound_init {d : List Card} {s : GameState}
    (hd : ∀ c ∈ d, c.get_value ≤ 3) (h : Game.new d = some s) :
    ValueBound s := by
  simp only [Game.new, Option.bind_eq_bind, Option.bind_eq_some',
    Option.pure_def, Option.some_inj] at h
  obtain ⟨⟨d', h0', h1'⟩, hdeal, hs⟩ := h
  subst hs
  obtain ⟨hd', hh0', hh1'⟩ :=
    dealRound_mem 5 d [] [] d' h0' h1' hdeal hd
      (by intro c hc; exact absurd hc (List.not_mem_nil c))
      (by intro c hc; exact absurd hc (List.not_mem_nil c))
  refine ⟨hh0', hh1', hd', rfl, ?_⟩
  intro f hf
  fin_cases hf <;> omega

/-- Any property of all cards of the mover's new hand and of both old
hands holds for both hands after `setCurHand`. -/
theorem setCurHand_mem {s : GameState} {h : List Card} {P : Card → Prop}
    (hh : ∀ c ∈ h, P c)
    (h0 : ∀ c ∈ s.hand0, P c) (h1 : ∀ c ∈ s.hand1, P c) :
    (∀ c ∈ (s.setCurHand h).hand0, P c) ∧
    (∀ c ∈ (s.setCurHand h).hand1, P c) := by
  unfold GameState.setCurHand
  split
  · exact ⟨hh, h1⟩
  · exact ⟨h0, hh⟩

/-- `setCurHand` leaves the fireworks untouched. -/
theorem setCurHand_fireworks (s : GameState) (h : List Card) :
    (s.setCurHand h).fireworks = s.fireworks := by
  unfold GameState.setCurHand
  split
  · rfl
  · rfl

/-- The mover's hand is one of the two hands. -/
theorem curHand_mem {s : GameState} {P : Card → Prop}
    (h0 : ∀ c ∈ s.hand0, P c) (h1 : ∀ c ∈ s.hand1, P c) :
    ∀ c ∈ s.curHand, P c := by
  unfold GameState.curHand
  split
  · exact h0
  · exact h1

/-- Move application preserves the value bound: the only way a firework
counter changes is to become the decoded value of a card that was in play,
which is at most 3. -/
theorem valueBound_step {s : GameState} {mv : Move} {s' : GameState}
    (h : Game.apply_move s mv = some s') (hv : ValueBound s) :
    ValueBound s' := by
  obtain ⟨hv0, hv1, hvd, hvlen, hvf⟩ := hv
  simp only [Game.apply_move, Option.map_eq_some'] at h
  obtain ⟨t, ht, hs'⟩ := h
  subst hs'
  cases mv with
  | Play i =>
    simp only [Game.play, Option.bind_eq_bind, Option.bind_eq_some'] at ht
    obtain ⟨card, hcard, ht⟩ := ht
    obtain ⟨color, _hcolor, ht⟩ := ht
    have hcmem : card ∈ s.curHand := List.get?_mem hcard
    have hcval : card.get_value ≤ 3 := curHand_mem hv0 hv1 card hcmem
    have herase : ∀ c ∈ s.curHand.eraseIdx i, c.get_value ≤ 3 :=
      fun c hc => curHand_mem hv0 hv1 c (List.mem_of_mem_eraseIdx hc)
    split at ht
    case _ new_card rest hpop =>
      obtain ⟨hnc, hrest⟩ := popDeck_mem hpop
      have hhand : ∀ c ∈ s.curHand.eraseIdx i ++ [new_card],
          c.get_value ≤ 3 := by
        intro c hc
        rcases List.mem_append.mp hc with hc | hc
        · exact herase c hc
        · simp only [List.mem_singleton] at hc
          subst hc
          exact hvd c hnc
      obtain ⟨hm0, hm1⟩ := setCurHand_mem hhand hv0 hv1
      obtain ⟨f, hf, ht⟩ := ht
      split at ht
      case _ hsucc =>
        simp only [Option.pure_def, Option.some_inj] at ht
        subst ht
        refine ⟨hm0, hm1, fun c hc => hvd c (hrest c hc), ?_, ?_⟩
        · simpa using hvlen
        · intro g hg
          rcases List.mem_or_eq_of_mem_set hg with hg | hg
          · exact hvf g hg
          · omega
      case _ =>
        simp only [Option.pure_def, Option.some_inj] at ht
        subst ht
        refine ⟨hm0, hm1, fun c hc => hvd c (hrest c hc), ?_, ?_⟩
        · simp [setCurHand_fireworks, hvlen]
        · simp only [setCurHand_fireworks]
          exact hvf
    case _ hpop =>
      obtain ⟨hm0, hm1⟩ := setCurHand_mem herase hv0 hv1
      obtain ⟨f, hf, ht⟩ := ht
      split at ht
      case _ hsucc =>
        simp only [Option.pure_def, Option.some_inj] at ht
        subst ht
        refine ⟨hm0, hm1, hvd, ?_, ?_⟩
        · simpa using hvlen
        · intro g hg
          rcases List.mem_or_eq_of_mem_set hg with hg | hg
          · exact hvf g hg
          · omega
      case _ =>
        simp only [Option.pure_def, Option.some_inj] at ht
        subst ht
        refine ⟨hm0, hm1, hvd, ?_, ?_⟩
        · simp [setCurHand_fireworks, hvlen]
        · simp only [setCurHand_fireworks]
          exact hvf
  | Discard i =>
    simp only [Game.discard, Option.bind_eq_bind, Option.bind_eq_some'] at ht
    obtain ⟨card, hcard, ht⟩ := ht
    have herase : ∀ c ∈ s.curHand.eraseIdx i, c.get_value ≤ 3 :=
      fun c hc => curHand_mem hv0 hv1 c (List.mem_of_mem_eraseIdx hc)
    split at ht
    case _ new_card rest hpop =>
      obtain ⟨hnc, hrest⟩ := popDeck_mem hpop
      have hhand : ∀ c ∈ s.curHand.eraseIdx i ++ [new_card],
          c.get_value ≤ 3 := by
        intro c hc
        rcases List.mem_append.mp hc with hc | hc
        · exact herase c hc
        · simp only [List.mem_singleton] at hc
          subst hc
          exact hvd c hnc
      obtain ⟨hm0, hm1⟩ := setCurHand_mem hhand hv0 hv1
      simp only [Option.pure_def, Option.some_inj] at ht
      subst ht
      refine ⟨hm0, hm1, fun c hc => hvd c (hrest c hc), ?_, ?_⟩
      · simp [setCurHand_fireworks, hvlen]
      · simp only [setCurHand_fireworks]
        exact hvf
    case _ hpop =>
      obtain ⟨hm0, hm1⟩ := setCurHand_mem herase hv0 hv1
      simp only [Option.pure_def, Option.some_inj] at ht
      subst ht
      refine ⟨hm0, hm1, hvd, ?_, ?_⟩
      · simp [setCurHand_fireworks, hvlen]
      · simp only [setCurHand_fireworks]
        exact hvf
  | HintColor c =>
    simp only [Game.give_hint_color] at ht
    split at ht
    · exact Option.noConfusion ht
    · simp only [Option.bind_eq_bind, Option.bind_eq_some',
        Option.pure_def, Option.some_inj] at ht
      obtain ⟨cs, _hcs, ht⟩ := ht
      subst ht
      exact ⟨hv0, hv1, hvd, hvlen, hvf⟩
  | HintValue v =>
    simp only [Game.give_hint_value] at ht
    split at ht
    · exact Option.noConfusion ht
    · simp only [Option.pure_def, Option.some_inj] at ht
      subst ht
      exact ⟨hv0, hv1, hvd, hvlen, hvf⟩

/-- The value bound holds in every reachable state of a game dealt from a
value-bounded deck. -/
theorem valueBound_reachable {d : List Card} {s : GameState}
    (hd : ∀ c ∈ d, c.get_value ≤ 3) (hr : Game.Reachable d s) :
    ValueBound s := by
  induction hr with
  | init s h => exact valueBound_init hd h
  | step s mv s' _hr h ih => exact valueBound_step h ih

/-- Claim C2: every card of `new_full_deck` decodes to a value of at most
3, so in any game dealt from any shuffle of it every fireworks counter
stays at most 3 in every reachable state, and the `game_over` disjunct
demanding all five fireworks equal to 5 (perfect score 25) never holds. -/
theorem C2_fireworks_capped_at_three :
    (∀ c ∈ Deck.new_full_deck, c.get_value ≤ 3) ∧
    ∀ d : List Card, d.Perm Deck.new_full_deck →
      ∀ s : GameState, Game.Reachable d s →
        (∀ f ∈ s.fireworks, f ≤ 3) ∧
        s.fireworks.all (fun f => f == 5) = false := by
  have hdeck : ∀ c ∈ Deck.new_full_deck, c.get_value ≤ 3 := by decide
  refine ⟨hdeck, ?_⟩
  intro d hperm s hr
  have hd : ∀ c ∈ d, c.get_value ≤ 3 :=
    fun c hc => hdeck c (hperm.mem_iff.mp hc)
  obtain ⟨_, _, _, hlen, hf⟩ := valueBound_reachable hd hr
  refine ⟨hf, ?_⟩
  cases hfw : s.fireworks with
  | nil => rw [hfw] at hlen; exact absurd hlen (by simp)
  | cons a l =>
    have ha : a ≤ 3 := hf a (by rw [hfw]; exact List.mem_cons_self a l)
    simp only [List.all_cons, Bool.and_eq_false_iff]
    left
    simp only [beq_eq_false_iff_ne, ne_eq]
    omega

/-- The state dealt by `Game::new` from the identity-shuffled full deck. -/
def dealtState : GameState :=
  ⟨[⟨45⟩, ⟨44⟩, ⟨43⟩, ⟨42⟩, ⟨41⟩],
   [⟨44⟩, ⟨43⟩, ⟨42⟩, ⟨41⟩, ⟨41⟩],
   [⟨1⟩, ⟨1⟩, ⟨1⟩, ⟨2⟩, ⟨2⟩, ⟨3⟩, ⟨3⟩, ⟨4⟩, ⟨4⟩, ⟨5⟩,
    ⟨11⟩, ⟨11⟩, ⟨11⟩, ⟨12⟩, ⟨12⟩, ⟨13⟩, ⟨13⟩, ⟨14⟩, ⟨14⟩, ⟨15⟩,
    ⟨21⟩, ⟨21⟩, ⟨21⟩, ⟨22⟩, ⟨22⟩, ⟨23⟩, ⟨23⟩, ⟨24⟩, ⟨24⟩, ⟨25⟩,
    ⟨31⟩, ⟨31⟩, ⟨31⟩, ⟨32⟩, ⟨32⟩, ⟨33⟩, ⟨33⟩, ⟨34⟩, ⟨34⟩, ⟨35⟩],
   [0, 0, 0, 0, 0], 8, 0, 0⟩

/-- Witness for C2 at the identity shuffle and the freshly dealt state. -/
theorem C2_fireworks_capped_at_three_witness :
    (∀ f ∈ dealtState.fireworks, f ≤ 3) ∧
    dealtState.fireworks.all (fun f => f == 5) = false :=
  C2_fireworks_capped_at_three.2 Deck.new_full_deck (List.Perm.refl _)
    dealtState (Game.Reachable.init dealtState (by decide))

/-- A hint as delivered to the update callbacks: a color or a value. -/
inductive Hint : Type
  | color (c : Color)
  | value (v : Nat)
deriving DecidableEq, Repr

/-- The hint predicate applied by `give_hint_color` / `give_hint_value`
(`game.rs`) to each card of the hinted hand: `card.get_color() == color`
resp. `card.get_value() == value`.  The color test panics on an invalid
encoding, hence the `Option`. -/
def cardMatches : Hint → Card → Option Bool
  | .color col, card => (card.get_color).map (fun x => x == col)
  | .value v, card => some (card.get_value == v)

/-- Total form of the hint predicate (agrees with `cardMatches` whenever
the latter succeeds). -/
def matchesB : Hint → Card → Bool
  | .color col, card => card.get_color == some col
  | .value v, card => card.get_value == v

/-- When the predicate evaluates, it evaluates to `matchesB`. -/
theorem cardMatches_eq_matchesB {h : Hint} {c : Card} {b : Bool}
    (hm : cardMatches h c = some b) : b = matchesB h c := by
  cases h with
  | color col =>
    simp only [cardMatches, Option.map_eq_some'] at hm
    obtain ⟨x, hx, hb⟩ := hm
    subst hb
    simp [matchesB, hx]
  | value v =>
    simp only [cardMatches, Option.some_inj] at hm
    subst hm
    rfl

/-- `hinted_indices` of `give_hint_color` / `give_hint_value` (`game.rs`):
`hand.iter().enumerate().filter(predicate).map(index)`, with `n` the index
of the first card. -/
def hintedIndicesFrom (h : Hint) : Nat → List Card → Option (List Nat)
  | _, [] => some []
  | n, c :: rest => do
      let b ← cardMatches h c
      let tail ← hintedIndicesFrom h (n + 1) rest
      return (if b then n :: tail else tail)

/-- The narrowing mask for a hint, as used by the receiving strategy
(`robert.rs`, `update_after_other_player_move`): `DeckSubset::from_color`
resp. `DeckSubset::from_value`. -/
def hintMask : Hint → Option Nat
  | .color c => some (DeckSubset.from_color c)
  | .value v => DeckSubset.from_value v

/-- The complement-within-universe mask for the non-hinted slots
(`robert.rs`): `from_color_inverted` resp. `from_value_inverted`. -/
def hintMaskInverted : Hint → Option Nat
  | .color c => some (DeckSubset.from_color_inverted c)
  | .value v => DeckSubset.from_value_inverted v

/-- The two update loops of `Robert::update_after_other_player_move`
(`robert.rs`): hinted slots are intersected with the hint's mask, all
other slots with its complement within the 50-bit universe. -/
def applyHintRobert (h : Hint) (indices : List Nat) (ks : List Nat) :
    Option (List Nat) := do
  let mask ← hintMask h
  let inv ← hintMaskInverted h
  let ks1 := indices.foldl
    (fun a i => a.set i (DeckSubset.intersect (a.getD i 0) mask)) ks
  let ks2 := ((List.range ks1.length).filter
      (fun i => !indices.contains i)).foldl
    (fun a i => a.set i (DeckSubset.intersect (a.getD i 0) inv)) ks1
  return ks2

/-- One full hint round: the game computes the hinted index set from the
hand, the receiving strategy updates its per-slot knowledge. -/
def hintStep (h : Hint) (hand : List Card) (ks : List Nat) :
    Option (List Nat) := do
  let idxs ← hintedIndicesFrom h 0 hand
  applyHintRobert h idxs ks

/-- A sequence of hints about a fixed hand. -/
def hintSeq (hand : List Card) : List Nat → List Hint → Option (List Nat)
  | ks, [] => some ks
  | ks, h :: hs => (hintStep h hand ks).bind (fun ks' => hintSeq hand ks' hs)

/-- The suit masks test exactly the matching cards (ids below 50). -/
theorem from_color_bit : ∀ col : Color, ∀ n < 50,
    Nat.testBit (DeckSubset.from_color col) n
      = matchesB (Hint.color col) ⟨n⟩ := by
  intro col
  cases col <;> decide

/-- The inverted suit masks test exactly the non-matching ids below 50. -/
theorem from_color_inv_bit : ∀ col : Color, ∀ n < 50,
    Nat.testBit (DeckSubset.from_color_inverted col) n
      = !(matchesB (Hint.color col) ⟨n⟩) := by
  intro col
  cases col <;> decide

/-- The value masks test exactly the matching cards (ids below 50). -/
theorem from_value_bit : ∀ v m, DeckSubset.from_value v = some m →
    ∀ n < 50, Nat.testBit m n = matchesB (Hint.value v) ⟨n⟩ := by
  intro v m hm
  unfold DeckSubset.from_value at hm
  split at hm
  all_goals try exact Option.noConfusion hm
  all_goals injection hm with h
  all_goals subst h
  all_goals decide

/-- The inverted value masks test the non-matching ids below 50. -/
theorem from_value_inv_bit : ∀ v m, DeckSubset.from_value_inverted v = some m →
    ∀ n < 50, Nat.testBit m n = !(matchesB (Hint.value v) ⟨n⟩) := by
  intro v m hm
  unfold DeckSubset.from_value_inverted DeckSubset.from_value at hm
  split at hm
  all_goals simp only [Option.map_some', Option.map_none'] at hm
  all_goals try exact Option.noConfusion hm
  all_goals injection hm with h
  all_goals subst h
  all_goals decide

/-- A hint's mask tests exactly the matching ids below 50. -/
theorem hintMask_bit {h : Hint} {m : Nat} (hm : hintMask h = some m) :
    ∀ n < 50, Nat.testBit m n = matchesB h ⟨n⟩ := by
  cases h with
  | color col =>
    simp only [hintMask, Option.some_inj] at hm
    subst hm
    exact from_color_bit col
  | value v => exact from_value_bit v m hm

/-- A hint's inverted mask tests exactly the non-matching ids below 50. -/
theorem hintMaskInverted_bit {h : Hint} {m : Nat}
    (hm : hintMaskInverted h = some m) :
    ∀ n < 50, Nat.testBit m n = !(matchesB h ⟨n⟩) := by
  cases h with
  | color col =>
    simp only [hintMaskInverted, Option.some_inj] at hm
    subst hm
    exact from_color_inv_bit col
  | value v => exact from_value_inv_bit v m hm

/-- Elements of the hinted index list lie in `[n, n + |hand|)` and are
pairwise distinct. -/
theorem hintedIndicesFrom_lb (h : Hint) :
    ∀ (hand : List Card) (n : Nat) (l : List Nat),
      hintedIndicesFrom h n hand = some l →
      (∀ m ∈ l, n ≤ m ∧ m < n + hand.length) ∧ l.Nodup := by
  intro hand
  induction hand with
  | nil =>
    intro n l hl
    simp only [hintedIndicesFrom, Option.some_inj] at hl
    subst hl
    simp
  | cons c rest ih =>
    intro n l hl
    simp only [hintedIndicesFrom, Option.bind_eq_bind, Option.bind_eq_some',
      Option.pure_def, Option.some_inj] at hl
    obtain ⟨b, _hb, tail, htail, hl⟩ := hl
    obtain ⟨hlb, hnd⟩ := ih (n + 1) tail htail
    subst hl
    cases b with
    | true =>
      refine ⟨?_, ?_⟩
      · show ∀ m ∈ n :: tail, n ≤ m ∧ m < n + (c :: rest).length
        intro m hm
        rcases List.mem_cons.mp hm with hm | hm
        · subst hm
          simp only [List.length_cons]
          omega
        · have := hlb m hm
          simp only [List.length_cons]
          omega
      · show (n :: tail).Nodup
        rw [List.nodup_cons]
        refine ⟨fun hn => ?_, hnd⟩
        have := (hlb n hn).1
        omega
    | false =>
      refine ⟨?_, ?_⟩
      · show ∀ m ∈ tail, n ≤ m ∧ m < n + (c :: rest).length
        intro m hm
        have := hlb m hm
        simp only [List.length_cons]
        omega
      · show tail.Nodup
        exact hnd

/-- Membership in the hinted index list is exactly the hint predicate
holding at that slot. -/
theorem hintedIndicesFrom_mem_iff (h : Hint) :
    ∀ (hand : List Card) (n : Nat) (l : List Nat) (j : Nat),
      hintedIndicesFrom h n hand = some l → j < hand.length →
      (n + j ∈ l ↔ cardMatches h (hand.getD j ⟨0⟩) = some true) := by
  intro hand
  induction hand with
  | nil =>
    intro n l j _hl hj
    exact absurd hj (by simp)
  | cons c rest ih =>
    intro n l j hl hj
    simp only [hintedIndicesFrom, Option.bind_eq_bind, Option.bind_eq_some',
      Option.pure_def, Option.some_inj] at hl
    obtain ⟨b, hb, tail, htail, hl⟩ := hl
    have htb := hintedIndicesFrom_lb h rest (n + 1) tail htail
    subst hl
    cases j with
    | zero =>
      cases b with
      | true =>
        constructor
        · intro _
          exact hb
        · intro _
          show n + 0 ∈ n :: tail
          exact List.mem_cons_self n tail
      | false =>
        constructor
        · intro hmem
          exfalso
          have hmem' : n + 0 ∈ tail := hmem
          have := (htb.1 _ hmem').1
          omega
        · intro hmatch
          have hmatch' : cardMatches h c = some true := hmatch
          rw [hb] at hmatch'
          exact absurd (Option.some.inj hmatch') (by simp)
    | succ j =>
      have hj' : j < rest.length := by
        simp only [List.length_cons] at hj
        omega
      have hiff := ih (n + 1) tail j htail hj'
      have harith : n + (j + 1) = (n + 1) + j := by omega
      cases b with
      | true =>
        constructor
        · intro hmem
          have hmem' : n + (j + 1) ∈ n :: tail := hmem
          rcases List.mem_cons.mp hmem' with he | hmem2
          · omega
          · have hmem3 : (n + 1) + j ∈ tail := by
              rw [← harith]
              exact hmem2
            exact hiff.mp hmem3
        · intro hmatch
          have := hiff.mpr hmatch
          show n + (j + 1) ∈ n :: tail
          refine List.mem_cons_of_mem n ?_
          rw [harith]
          exact this
      | false =>
        constructor
        · intro hmem
          have hmem' : (n + 1) + j ∈ tail := by
            rw [← harith]
            exact hmem
          exact hiff.mp hmem'
        · intro hmatch
          have := hiff.mpr hmatch
          show n + (j + 1) ∈ tail
          rw [harith]
          exact this

/-- A `false` result of `contains` means non-membership. -/
theorem not_mem_of_not_contains {x : Nat} {l : List Nat}
    (h : (!l.contains x) = true) : x ∉ l := by
  intro hmem
  have hc : l.contains x = true := List.elem_iff.mpr hmem
  rw [hc] at h
  exact Bool.noConfusion h

/-- Non-membership makes `contains` return `false`. -/
theorem not_contains_of_not_mem {x : Nat} {l : List Nat}
    (h : x ∉ l) : (!l.contains x) = true := by
  cases hc : l.contains x
  · rfl
  · exact absurd (List.elem_iff.mp hc) h

/-- Valid encodings always decode to a suit. -/
theorem get_color_isSome_aux : ∀ n < 50,
    (Card.get_color ⟨n⟩).isSome = true := by
  decide

/-- Valid encodings always decode to a suit (card form). -/
theorem get_color_isSome (c : Card) (h : c.val < 50) :
    (c.get_color).isSome = true :=
  get_color_isSome_aux c.val h

/-- Folding slot updates preserves the number of slots. -/
theorem foldl_set_length (u : Nat → Nat) :
    ∀ (idxs ks : List Nat),
      (idxs.foldl (fun a i => a.set i (u (a.getD i 0))) ks).length
        = ks.length := by
  intro idxs
  induction idxs with
  | nil => intro ks; rfl
  | cons i rest ih =>
    intro ks
    simp only [List.foldl_cons]
    rw [ih, List.length_set]

/-- Folding slot updates over distinct indices acts pointwise. -/
theorem foldl_set_getD (u : Nat → Nat) :
    ∀ (idxs : List Nat) (ks : List Nat) (j : Nat), idxs.Nodup →
      j < ks.length →
      (idxs.foldl (fun a i => a.set i (u (a.getD i 0))) ks).getD j 0
        = if j ∈ idxs then u (ks.getD j 0) else ks.getD j 0 := by
  intro idxs
  induction idxs with
  | nil =>
    intro ks j _ _
    simp
  | cons i rest ih =>
    intro ks j hnd hj
    obtain ⟨hnotin, hnd'⟩ := List.nodup_cons.mp hnd
    simp only [List.foldl_cons]
    by_cases hji : j = i
    · subst hji
      have hset : (ks.set j (u (ks.getD j 0))).getD j 0 = u (ks.getD j 0) := by
        rw [List.getD_eq_getElem?_getD, List.getElem?_set_self,
          Option.getD_some]
        · exact hj
      rw [ih (ks.set j (u (ks.getD j 0))) j hnd' (by simpa using hj)]
      rw [if_neg hnotin, hset, if_pos (List.mem_cons_self j rest)]
    · have hset : (ks.set i (u (ks.getD i 0))).getD j 0 = ks.getD j 0 := by
        rw [List.getD_eq_getElem?_getD,
          List.getElem?_set_ne (fun he => hji he.symm),
          ← List.getD_eq_getElem?_getD]
      rw [ih (ks.set i (u (ks.getD i 0))) j hnd' (by simpa using hj)]
      rw [hset]
      by_cases hjr : j ∈ rest
      · rw [if_pos hjr, if_pos (List.mem_cons_of_mem i hjr)]
      · rw [if_neg hjr, if_neg (by
          intro hmem
          rcases List.mem_cons.mp hmem with hmem | hmem
          · exact hji hmem
          · exact hjr hmem)]

/-- One hint round preserves slot count and never clears the bit of the
true card held in a slot. -/
theorem hintStep_sound {h : Hint} {hand : List Card} {ks ks' : List Nat}
    {i : Nat}
    (hlen : ks.length = hand.length)
    (hvalid : ∀ c ∈ hand, c.val < 50)
    (hi : i < hand.length)
    (hstep : hintStep h hand ks = some ks')
    (hbit : Nat.testBit (ks.getD i 0) ((hand.getD i ⟨0⟩).val) = true) :
    ks'.length = ks.length ∧
    Nat.testBit (ks'.getD i 0) ((hand.getD i ⟨0⟩).val) = true := by
  simp only [hintStep, Option.bind_eq_bind, Option.bind_eq_some'] at hstep
  obtain ⟨idxs, hidxs, hstep⟩ := hstep
  simp only [applyHintRobert, Option.bind_eq_bind, Option.bind_eq_some',
    Option.pure_def, Option.some_inj] at hstep
  obtain ⟨mask, hmask, inv, hinv, hks'⟩ := hstep
  obtain ⟨_hbnd, hnd⟩ := hintedIndicesFrom_lb h hand 0 idxs hidxs
  set tc : Card := hand.getD i ⟨0⟩ with htc
  have htcm : tc ∈ hand := by
    rw [htc, List.getD_eq_getElem hand ⟨0⟩ hi]
    exact hand.getElem_mem hi
  have htc50 : tc.val < 50 := hvalid tc htcm
  have hmaskbit := hintMask_bit hmask tc.val htc50
  have hinvbit := hintMaskInverted_bit hinv tc.val htc50
  have hiff := hintedIndicesFrom_mem_iff h hand 0 idxs i hidxs hi
  simp only [Nat.zero_add] at hiff
  have hilen : i < ks.length := by rw [hlen]; exact hi
  set u1 : Nat → Nat := fun x => DeckSubset.intersect x mask with hu1
  set u2 : Nat → Nat := fun x => DeckSubset.intersect x inv with hu2
  set ks1 : List Nat :=
    idxs.foldl (fun a i => a.set i (u1 (a.getD i 0))) ks with hks1
  have hks1len : ks1.length = ks.length := foldl_set_length u1 idxs ks
  have hks1getD : ks1.getD i 0
      = if i ∈ idxs then u1 (ks.getD i 0) else ks.getD i 0 :=
    foldl_set_getD u1 idxs ks i hnd hilen
  have hks2 : ks' = ((List.range ks1.length).filter
      (fun x => !idxs.contains x)).foldl
      (fun a i => a.set i (u2 (a.getD i 0))) ks1 := hks'.symm
  have hks2len : ks'.length = ks.length := by
    rw [hks2, foldl_set_length u2, hks1len]
  have hcomp_nd : ((List.range ks1.length).filter
      (fun x => !idxs.contains x)).Nodup :=
    List.Nodup.filter _ (List.nodup_range _)
  have hks2getD : ks'.getD i 0
      = if i ∈ (List.range ks1.length).filter (fun x => !idxs.contains x)
        then u2 (ks1.getD i 0) else ks1.getD i 0 := by
    rw [hks2]
    exact foldl_set_getD u2 _ ks1 i hcomp_nd (by rw [hks1len]; exact hilen)
  refine ⟨hks2len, ?_⟩
  by_cases hmem : i ∈ idxs
  · have hmatch : cardMatches h tc = some true := hiff.mp hmem
    have hmB : matchesB h tc = true := (cardMatches_eq_matchesB hmatch).symm
    have hcompmem : i ∉ (List.range ks1.length).filter
        (fun x => !idxs.contains x) := by
      intro hc
      exact not_mem_of_not_contains (List.mem_filter.mp hc).2 hmem
    rw [hks2getD, if_neg hcompmem, hks1getD, if_pos hmem, hu1]
    simp only [DeckSubset.intersect, Nat.testBit_and]
    rw [hbit, hmaskbit]
    have hgoal : (true && matchesB h tc) = true := by
      rw [hmB]
      rfl
    exact hgoal
  · have hmatch : ¬cardMatches h tc = some true := fun hc => hmem (hiff.mpr hc)
    have hmB : matchesB h tc = false := by
      rcases hcm : cardMatches h tc with _ | b
      · exfalso
        cases h with
        | color col =>
          have hx := get_color_isSome tc htc50
          rw [Option.isSome_iff_exists] at hx
          obtain ⟨x, hx⟩ := hx
          simp only [cardMatches, hx, Option.map_some'] at hcm
          exact Option.noConfusion hcm
        | value v =>
          simp only [cardMatches] at hcm
          exact Option.noConfusion hcm
      · have hbm := cardMatches_eq_matchesB hcm
        subst hbm
        by_contra hne
        simp only [Bool.not_eq_false] at hne
        exact hmatch (by rw [hcm, hne])
    have hcompmem : i ∈ (List.range ks1.length).filter
        (fun x => !idxs.contains x) := by
      refine List.mem_filter.mpr ⟨?_, not_contains_of_not_mem hmem⟩
      exact List.mem_range.mpr (by rw [hks1len]; exact hilen)
    rw [hks2getD, if_pos hcompmem, hks1getD, if_neg hmem, hu2]
    simp only [DeckSubset.intersect, Nat.testBit_and]
    rw [hbit, hinvbit]
    have hgoal : (true && !(matchesB h tc)) = true := by
      rw [hmB]
      rfl
    exact hgoal

/-- Claim C5 (knowledge soundness): for any sequence of color/value hints
about a hand of validly encoded cards, where the game computes the hinted
index set as the slots whose card matches the hint predicate and the
receiving strategy intersects hinted slots with the hint's mask and the
remaining slots with its complement within the 50-bit universe, the bit of
the true card held in any slot remains set in that slot's knowledge mask
after the whole sequence. -/
theorem C5_knowledge_soundness :
    ∀ (hints : List Hint) (hand : List Card) (ks ks' : List Nat) (i : Nat),
      ks.length = hand.length →
      i < hand.length →
      (∀ c ∈ hand, c.val < 50) →
      hintSeq hand ks hints = some ks' →
      Nat.testBit (ks.getD i 0) ((hand.getD i ⟨0⟩).val) = true →
      Nat.testBit (ks'.getD i 0) ((hand.getD i ⟨0⟩).val) = true := by
  intro hints
  induction hints with
  | nil =>
    intro hand ks ks' i hlen hi hvalid hseq hbit
    simp only [hintSeq, Option.some_inj] at hseq
    subst hseq
    exact hbit
  | cons h hs ih =>
    intro hand ks ks' i hlen hi hvalid hseq hbit
    simp only [hintSeq, Option.bind_eq_some'] at hseq
    obtain ⟨ks1, hstep, hseq⟩ := hseq
    obtain ⟨hlen1, hbit1⟩ := hintStep_sound hlen hvalid hi hstep hbit
    exact ih hand ks1 ks' i (by rw [hlen1, hlen]) hi hvalid hseq hbit1

/-- Witness for C5: a red hint about a one-card hand holding the red 1
(id 0) narrows the full mask to the red suit mask, which still contains
the card. -/
theorem C5_knowledge_soundness_witness :
    Nat.testBit (([1023] : List Nat).getD 0 0)
      ((([(⟨0⟩ : Card)] : List Card).getD 0 ⟨0⟩).val) = true :=
  C5_knowledge_soundness [Hint.color Color.Red] [⟨0⟩]
    [DeckSubset.new_full] [1023] 0 (by decide) (by decide) (by decide)
    (by decide) (by decide)

/-- The tuning weights of the reference agent (`robert.rs`, `Params`),
with `f64` fields embedded as rationals; the `i32` exponent fields are
embedded as naturals (their defaults are positive, and the claims are
stated at the defaults). -/
structure Params : Type where
  score_play_base : ℚ
  score_discard_base : ℚ
  score_hint_base : ℚ
  score_play_exponent_probability : ℕ
  score_play_by_playability_weight : ℚ
  score_play_badness_mistake_weight : ℚ
  score_play_can_play_5_sure : ℚ
  score_play_make_playable : ℚ
  score_play_make_playable_weighted_by_partner_knowledge : ℚ
  score_play_make_discardable : ℚ
  score_play_make_discardable_weighted_by_partner_knowledge : ℚ
  score_play_sure : ℚ
  score_play_focused_hint : ℚ
  score_discard_exponent_probability : ℕ
  score_discard_value_of_a_hint : ℚ
  score_discard_probability_weight : ℚ
  score_discard_badness_mistake_weight : ℚ
  score_discard_hints_low_weight : ℚ
  score_hint_focused_hint : ℚ
  score_hint_exponent_information_gain : ℕ
  score_hint_information_gain : ℚ
  score_hint_make_playable : ℚ
  score_hint_make_discardable : ℚ
  score_badness_discard_only_card_left_of_its_kind : ℚ

/-- `Params::default` (`robert.rs`), field for field. -/
def Params.default : Params :=
  ⟨1, 1, 1,
   3, 20, 100, 1000, 50, 40, 2, 2, 100, 100,
   2, 10, 60, 80, 25,
   50, 1, 1.5, 100, 20,
   5000⟩

/-- The `10e-15` tolerance of the sureness tests in `score_play`. -/
def epsQ : ℚ := 10 / 10 ^ 15

/-- `Robert::score_play` (`robert.rs`) as a function of the quantities it
reads: the focused-hint slot, the mistake count, the playability
probability `p` of the examined slot, its only-copy-left probability `q`,
and the total `bonus` contributed by the exact-card-known block (the block
only ever adds terms, each nonnegative at the default weights).  The
source adds the focused bonus first and then discards it via `return 0.0`
when `p < 1 - 10e-15 && mistakes_made == 2`; the sum is reassociated here,
with the guard outermost, which yields the same value. -/
def score_play (P : Params) (focused_hint : Option ℕ) (idx : ℕ)
    (mistakes_made : ℕ) (p q bonus : ℚ) : ℚ :=
  if p < 1 - epsQ ∧ mistakes_made = 2 then 0
  else
    (if focused_hint = some idx then P.score_play_focused_hint else 0)
    + p ^ P.score_play_exponent_probability * P.score_play_by_playability_weight
    + (if 1 - epsQ < p then P.score_play_sure else 0)
    - (1 - p) * ((mistakes_made : ℚ) + 5) * P.score_play_badness_mistake_weight
    - (1 - p) * q * P.score_badness_discard_only_card_left_of_its_kind
    + bonus

/-- Claim C10: at the default weights, with the focused hint, the mistake
count, the only-copy-left probability and the exact-card bonus held fixed
(the bonus being nonnegative, as every term of that block is at the
defaults), `score_play` is monotone nondecreasing in the playability
probability on `[0, 1]`. -/
theorem C10_score_play_monotone (focused_hint : Option ℕ) (idx mistakes : ℕ)
    (p₁ p₂ q B : ℚ) (hp₁ : 0 ≤ p₁) (hp12 : p₁ ≤ p₂) (hp₂ : p₂ ≤ 1)
    (hq0 : 0 ≤ q) (hq1 : q ≤ 1) (hB : 0 ≤ B) :
    score_play Params.default focused_hint idx mistakes p₁ q B ≤
      score_play Params.default focused_hint idx mistakes p₂ q B := by
  have hpow : p₁ ^ 3 ≤ p₂ ^ 3 := pow_le_pow_left₀ hp₁ hp12 3
  unfold score_play
  simp only [Params.default]
  by_cases hg1 : p₁ < 1 - epsQ ∧ mistakes = 2
  · by_cases hg2 : p₂ < 1 - epsQ ∧ mistakes = 2
    · rw [if_pos hg1, if_pos hg2]
    · rw [if_pos hg1, if_neg hg2]
      have hm2' : mistakes = 2 := hg1.2
      subst hm2'
      have hp2eps : 1 - epsQ ≤ p₂ := by
        by_contra hlt
        push_neg at hlt
        exact hg2 ⟨hlt, rfl⟩
      have heps0 : (0 : ℚ) ≤ 1 - epsQ := by norm_num [epsQ]
      have hpow2 : (1 - epsQ) ^ 3 ≤ p₂ ^ 3 := pow_le_pow_left₀ heps0 hp2eps 3
      have hp2le : 1 - p₂ ≤ epsQ := by linarith
      have hp2ge : (0 : ℚ) ≤ 1 - p₂ := by linarith
      have hfq : (1 - p₂) * q ≤ epsQ := by nlinarith
      have hfocus : (0 : ℚ) ≤
          (if focused_hint = some idx then (100 : ℚ) else 0) := by
        split
        · norm_num
        · norm_num
      have hsure : (0 : ℚ) ≤ (if 1 - epsQ < p₂ then (100 : ℚ) else 0) := by
        split
        · norm_num
        · norm_num
      have hcube : (0 : ℚ) ≤
          20 * (1 - epsQ) ^ 3 - 700 * epsQ - 5000 * epsQ := by
        norm_num [epsQ]
      push_cast
      nlinarith [hpow2, hp2le, hfq, hfocus, hsure, hB, hcube]
  · by_cases hg2 : p₂ < 1 - epsQ ∧ mistakes = 2
    · exact absurd ⟨by linarith [hg2.1], hg2.2⟩ hg1
    · rw [if_neg hg1, if_neg hg2]
      have h20 : p₁ ^ 3 * 20 ≤ p₂ ^ 3 * 20 := by linarith
      have hC : (0 : ℚ) ≤ ((mistakes : ℚ) + 5) * 100 := by positivity
      have hm1 : 0 ≤ (p₂ - p₁) * (((mistakes : ℚ) + 5) * 100) :=
        mul_nonneg (sub_nonneg.mpr hp12) hC
      have hm2 : 0 ≤ (p₂ - p₁) * (q * 5000) :=
        mul_nonneg (sub_nonneg.mpr hp12) (by positivity)
      by_cases hs1 : 1 - epsQ < p₁
      · have hs2 : 1 - epsQ < p₂ := by linarith
        rw [if_pos hs1, if_pos hs2]
        nlinarith [hm1, hm2, h20]
      · by_cases hs2 : 1 - epsQ < p₂
        · rw [if_neg hs1, if_pos hs2]
          have heps0 : (0 : ℚ) < 100 := by norm_num
          nlinarith [hm1, hm2, h20]
        · rw [if_neg hs1, if_neg hs2]
          nlinarith [hm1, hm2, h20]

/-- Witness for C10 at `p₁ = 0`, `p₂ = 1`, everything else zero. -/
theorem C10_score_play_monotone_witness :
    score_play Params.default none 0 0 0 0 0 ≤
      score_play Params.default none 0 0 1 0 0 :=
  C10_score_play_monotone none 0 0 0 1 0 0 (by norm_num) (by norm_num)
    (by norm_num) (by norm_num) (by norm_num) (by norm_num)

/-- Claim C1 (counterexample evidence): the deck built by
`Deck::new_full_deck` does NOT contain each of the 50 encoded ids `0..49`
exactly once: id 1 occurs three times and id 0 never occurs, although the
deck does have 50 cards. -/
theorem C1_new_full_deck_duplicate_ids :
    Deck.new_full_deck.count ⟨1⟩ = 3 ∧
    Deck.new_full_deck.count ⟨0⟩ = 0 ∧
    Deck.new_full_deck.length = 50 := by
  decide

/-- Claim C3 (counterexample evidence): `Knowledge::has_card` is not a
membership test on bit `card.0`: after `add_card` of card id 1 the bit is
set, yet `has_card` returns `false` (the stray `& 1` masks everything but
bit 0).  The parallel `DeckSubset::has_card` behaves correctly. -/
theorem C3_knowledge_has_card_broken :
    Knowledge.has_card (Knowledge.add_card 0 ⟨1⟩) ⟨1⟩ = false ∧
    Nat.testBit (Knowledge.add_card 0 ⟨1⟩) 1 = true ∧
    DeckSubset.has_card (DeckSubset.add_card 0 ⟨1⟩) ⟨1⟩ = true := by
  decide

/-- Claim C6 (counterexample): the single-card mask of card id 0 (a red 1)
has population count 3, not 1, because the value-1 mask keeps all three
copies of the 1 in the suit. -/
theorem C6_from_card_popcount_not_one :
    (DeckSubset.from_card ⟨0⟩).map DeckSubset.popCount ≠ some 1 ∧
    (DeckSubset.from_card ⟨0⟩).map DeckSubset.popCount = some 3 := by
  decide

/-- Multiplicity of a value in one suit: 3 copies of a 1, 2 copies of each
of 2, 3 and 4, and a single 5. -/
def valueMultiplicity (v : Nat) : Nat :=
  if v = 1 then 3 else if v = 5 then 1 else 2

/-- The amended C6 property, checked for every encoded id below 50. -/
theorem from_card_popcount_aux :
    ∀ n < 50, (DeckSubset.from_card ⟨n⟩).map DeckSubset.popCount
      = some (valueMultiplicity (Card.get_value ⟨n⟩)) := by
  decide

/-- Claim C6 (amended): for every card with encoded id below 50 the
single-card mask `from_card` is defined and its population count equals the
multiplicity of the card's decoded value (3 for value 1, 2 for values 2–4,
1 for value 5); it equals 1 exactly on the five value-5 encodings. -/
theorem C6_from_card_popcount_eq_multiplicity (c : Card) (h : c.val < 50) :
    (DeckSubset.from_card c).map DeckSubset.popCount
      = some (valueMultiplicity c.get_value) :=
  from_card_popcount_aux c.val h

/-- Witness for the amended C6 at card id 9 (a red 5): popcount 1. -/
theorem C6_from_card_popcount_witness :
    (DeckSubset.from_card ⟨9⟩).map DeckSubset.popCount
      = some (valueMultiplicity (Card.get_value ⟨9⟩)) :=
  C6_from_card_popcount_eq_multiplicity ⟨9⟩ (by decide)

/-- Claim C7 (counterexample): `Knowledge::new_full` is `!0`, so bits 50–63
are set, violating "only bits 0–49 are ever set"; bit 63 is a witness. -/
theorem C7_knowledge_new_full_high_bits :
    Nat.testBit Knowledge.new_full 63 = true ∧
    Nat.testBit Knowledge.new_full 50 = true := by
  decide

/-- Claim C7 (amended): `DeckSubset::new_full` sets exactly bits 0–49, and
every suit/value mask and inverted mask of both `DeckSubset` and
`Knowledge` has only bits 0–49 set; `Knowledge::new_full`, however, is the
all-ones 64-bit word, so every one of its 64 bits is set. -/
theorem C7_constructor_bit_ranges :
    (∀ n < 64, Nat.testBit DeckSubset.new_full n = decide (n < 50)) ∧
    (∀ c : Color, ∀ n < 64, 50 ≤ n →
      Nat.testBit (DeckSubset.from_color c) n = false ∧
      Nat.testBit (DeckSubset.from_color_inverted c) n = false ∧
      Nat.testBit (Knowledge.from_color c) n = false) ∧
    (∀ v m, DeckSubset.from_value v = some m →
      ∀ n < 64, 50 ≤ n → Nat.testBit m n = false) ∧
    (∀ v m, DeckSubset.from_value_inverted v = some m →
      ∀ n < 64, 50 ≤ n → Nat.testBit m n = false) ∧
    (∀ v m, Knowledge.from_value v = some m →
      ∀ n < 64, 50 ≤ n → Nat.testBit m n = false) ∧
    (∀ n < 64, Nat.testBit Knowledge.new_full n = true) := by
  refine ⟨by decide, ?_, ?_, ?_, ?_, by decide⟩
  · intro c
    cases c <;> decide
  · intro v m hm
    unfold DeckSubset.from_value at hm
    split at hm
    all_goals try exact Option.noConfusion hm
    all_goals injection hm with h
    all_goals subst h
    all_goals decide
  · intro v m hm
    unfold DeckSubset.from_value_inverted DeckSubset.from_value at hm
    split at hm
    all_goals simp only [Option.map_some', Option.map_none'] at hm
    all_goals try exact Option.noConfusion hm
    all_goals injection hm with h
    all_goals subst h
    all_goals decide
  · intro v m hm
    unfold Knowledge.from_value at hm
    split at hm
    all_goals try exact Option.noConfusion hm
    all_goals injection hm with h
    all_goals subst h
    all_goals decide

/-- Witness for the amended C7, discharging the bound hypotheses at
concrete inputs. -/
theorem C7_constructor_bit_ranges_witness :
    Nat.testBit DeckSubset.new_full 0 = decide ((0 : Nat) < 50) ∧
    Nat.testBit (DeckSubset.from_color Color.Red) 50 = false ∧
    Nat.testBit Knowledge.new_full 63 = true :=
  ⟨C7_constructor_bit_ranges.1 0 (by decide),
   (C7_constructor_bit_ranges.2.1 Color.Red 50 (by decide) (by decide)).1,
   C7_constructor_bit_ranges.2.2.2.2.2 63 (by decide)⟩

end Hanabi
